import Mathlib

/-!
Shallow embedding of the glossary engine of the search-glossary repository
(file src/core/glossary.py, class GlossaryManager).

Strings are modelled as lists of characters.  Python dictionaries are
modelled as insertion-ordered association lists (`dget`, `dput`, `dkeys`),
matching the insertion-order iteration semantics of Python dicts that
`find_terms_in_text` relies on.  Python string methods are modelled over
ASCII: `str.lower` lowers the 26 ASCII capitals, `str.strip` removes the
ASCII whitespace characters, and the regex token `\w` is the ASCII word
character class.  The CSV layer is modelled at the level of already parsed
rows: a `CsvFile` is unreadable (an IO error on open), or the list of rows
produced by csv.reader, or a list of rows after which the lazily decoding
reader raises (a UnicodeDecodeError or csv.Error caught by the generic
handler of load_glossary).  Code that can raise a Python exception
(`find_terms_in_text` indexes entry dictionaries with fixed keys) returns
`Except Unit`.
-/

namespace SearchGlossary

abbrev Str := List Char

/-- Characters of a Lean string literal, used to write concrete inputs. -/
def lit (s : String) : Str := s.data

/-- ASCII model of Python `str.lower` on one character. -/
def lowerChar (c : Char) : Char :=
  if 65 ≤ c.toNat ∧ c.toNat ≤ 90 then Char.ofNat (c.toNat + 32) else c

/-- Python `str.lower`. -/
def lowerStr (s : Str) : Str := s.map lowerChar

/-- ASCII model of Python `str.upper` on one character. -/
def upperChar (c : Char) : Char :=
  if 97 ≤ c.toNat ∧ c.toNat ≤ 122 then Char.ofNat (c.toNat - 32) else c

/-- Python `str.upper`. -/
def upperStr (s : Str) : Str := s.map upperChar

/-- ASCII whitespace, the characters removed by Python `str.strip()`. -/
def isSpace (c : Char) : Bool :=
  c.toNat = 32 || c.toNat = 9 || c.toNat = 10 || c.toNat = 13 ||
  c.toNat = 11 || c.toNat = 12

/-- Remove the characters satisfying `p` from both ends of a list. -/
def dropEnds (p : Char → Bool) (s : Str) : Str :=
  ((s.dropWhile p).reverse.dropWhile p).reverse

/-- Python `str.strip()` (no argument): remove surrounding whitespace. -/
def strip (s : Str) : Str := dropEnds isSpace s

/-- Python `str.strip(chars)`: remove the given surrounding characters. -/
def stripChars (cset : Str) (s : Str) : Str :=
  dropEnds (fun c => cset.contains c) s

/-- The normalization `term.strip().lower()` applied by `load_glossary`
to term keys and by `get_term` to lookup arguments. -/
def normalize (s : Str) : Str := lowerStr (strip s)

/-- Does `needle` start the list `hay`?  Helper for `substr`. -/
def startsWith : Str → Str → Bool
  | [], _ => true
  | _ :: _, [] => false
  | a :: as, b :: bs => a == b && startsWith as bs

/-- Python substring containment `needle in hay`. -/
def substr (needle : Str) : Str → Bool
  | [] => needle.isEmpty
  | c :: rest => startsWith needle (c :: rest) || substr needle rest

/-- The ASCII word-character class of the regex token `\w`:
letters, digits and the underscore. -/
def isWordChar (c : Char) : Bool :=
  (48 ≤ c.toNat && c.toNat ≤ 57) || (65 ≤ c.toNat && c.toNat ≤ 90) ||
  (97 ≤ c.toNat && c.toNat ≤ 122) || c.toNat == 95

/-- Accumulator loop behind `wordTokens`: `acc` holds the reversed
current run of word characters. -/
def wordTokensAux : Str → Str → List Str
  | [], acc => if acc = [] then [] else [acc.reverse]
  | c :: rest, acc =>
    if isWordChar c then wordTokensAux rest (c :: acc)
    else if acc = [] then wordTokensAux rest []
    else acc.reverse :: wordTokensAux rest []

/-- The maximal runs of word characters of a text: the result of
Python `re.findall` applied to the word-token regex (a `\w` run bounded
by word boundaries on both sides). -/
def wordTokens (s : Str) : List Str := wordTokensAux s []

/-- Accumulator loop behind `splitWs`: `acc` holds the reversed current
run of non-whitespace characters. -/
def splitWsAux : Str → Str → List Str
  | [], acc => if acc = [] then [] else [acc.reverse]
  | c :: rest, acc =>
    if isSpace c then
      if acc = [] then splitWsAux rest []
      else acc.reverse :: splitWsAux rest []
    else splitWsAux rest (c :: acc)

/-- Python `str.split()` with no argument: the maximal runs of
non-whitespace characters. -/
def splitWs (s : Str) : List Str := splitWsAux s []

/-- Python dict lookup `d.get(q)` over an association list. -/
def dget {α : Type} : List (Str × α) → Str → Option α
  | [], _ => none
  | (k, v) :: t, q => if k = q then some v else dget t q

/-- Python dict membership `q in d`. -/
def dmem {α : Type} (d : List (Str × α)) (q : Str) : Bool :=
  (dget d q).isSome

/-- Python dict assignment `d[q] = v`: replace in place when the key is
present, keeping its position, else append (insertion order). -/
def dput {α : Type} : List (Str × α) → Str → α → List (Str × α)
  | [], q, v => [(q, v)]
  | (k, w) :: t, q, v =>
    if k = q then (k, v) :: t else (k, w) :: dput t q v

/-- The keys of a dict in iteration (insertion) order. -/
def dkeys {α : Type} (d : List (Str × α)) : List Str := d.map Prod.fst

/-- A glossary entry: for English a dict with the keys `translation` and
`notes`; for the other languages the whole-row dict `column_data` keyed
by the literal header names. -/
abbrev Entry := List (Str × Str)

/-- One per-language table of `GlossaryManager.glossaries`: the `data`
dict, the `path`, the `header` key (absent before the first load attempt
that reads a header row), and the two `info` fields.  The timestamp
written by `datetime.now().isoformat()` is modelled as the abstract clock
value passed to `load_glossary`. -/
structure LangTable where
  data : List (Str × Entry)
  path : Option Str
  header : Option (List Str)
  total_terms : Nat
  last_updated : Option Nat
deriving DecidableEq

/-- The initial table `{"data": {}, "path": None, "info": {"total_terms": 0,
"last_updated": None}}`. -/
def LangTable.init : LangTable := ⟨[], none, none, 0, none⟩

/-- The supported language codes, the keys of `self.glossaries`. -/
inductive Lang
  | en
  | ko
  | zh
deriving DecidableEq

/-- The state of a `GlossaryManager`: one table per supported language
plus the current language. -/
structure GlossaryManager where
  tab_en : LangTable
  tab_ko : LangTable
  tab_zh : LangTable
  current_language : Lang
deriving DecidableEq

/-- The state built by `GlossaryManager.__init__`. -/
def GlossaryManager.init : GlossaryManager :=
  ⟨LangTable.init, LangTable.init, LangTable.init, Lang.en⟩

/-- Read `self.glossaries[lang]`. -/
def getTable (st : GlossaryManager) : Lang → LangTable
  | .en => st.tab_en
  | .ko => st.tab_ko
  | .zh => st.tab_zh

/-- Write `self.glossaries[lang]`. -/
def setTable (st : GlossaryManager) : Lang → LangTable → GlossaryManager
  | .en, t => { st with tab_en := t }
  | .ko, t => { st with tab_ko := t }
  | .zh, t => { st with tab_zh := t }

/-- Python `list.index`: position of the first occurrence. -/
def idxOf (q : Str) : List Str → Nat
  | [] => 0
  | h :: t => if h = q then 0 else idxOf q t + 1

/-- The required-column resolution of `load_glossary`: for `en` the
case-insensitive `term` / `translation` columns (plus the optional
`notes` column), for `ko` the exact `ハングル` / `日本語` pair and for
`zh` the exact `中文` / `日本語` pair.  Returns the term index, the
translation index and the optional notes index, or `none` when the
required columns are absent (`valid_file` stays false). -/
def schemaOf : Lang → List Str → Option (Nat × Nat × Option Nat)
  | .en, header =>
    let nh := header.map lowerStr
    if lit "term" ∈ nh ∧ lit "translation" ∈ nh then
      some (idxOf (lit "term") nh, idxOf (lit "translation") nh,
        if lit "notes" ∈ nh then some (idxOf (lit "notes") nh) else none)
    else none
  | .ko, header =>
    if lit "ハングル" ∈ header ∧ lit "日本語" ∈ header then
      some (idxOf (lit "ハングル") header, idxOf (lit "日本語") header, none)
    else none
  | .zh, header =>
    if lit "中文" ∈ header ∧ lit "日本語" ∈ header then
      some (idxOf (lit "中文") header, idxOf (lit "日本語") header, none)
    else none

/-- The `column_data` dict built for a `ko` / `zh` row: every header
column name mapped to the stripped cell, missing trailing cells
defaulting to the empty string. -/
def buildCols (header : List Str) (row : List Str) : Entry :=
  (List.range header.length).foldl
    (fun d i =>
      dput d (header.getD i [])
        (if i < row.length then strip (row.getD i []) else []))
    []

/-- The entry stored for one valid row: for `en` the
`{"translation": ..., "notes": ...}` dict, for `ko` / `zh` the whole-row
`column_data` dict. -/
def entryFor : Lang → List Str → Nat → Option Nat → List Str → Entry
  | .en, _, tri, ni, row =>
    [(lit "translation", strip (row.getD tri [])),
     (lit "notes",
       match ni with
       | some n => if n < row.length then strip (row.getD n []) else []
       | none => [])]
  | .ko, header, _, _, row => buildCols header row
  | .zh, header, _, _, row => buildCols header row

/-- Processing of one data row inside `load_glossary`: rows with enough
columns whose normalized term and stripped translation are both
non-empty are stored (overwriting a previous entry with the same key)
and counted; all other rows are skipped. -/
def rowStep (lang : Lang) (header : List Str) (ti tri : Nat) (ni : Option Nat)
    (p : List (Str × Entry) × Nat) (row : List Str) : List (Str × Entry) × Nat :=
  if max ti tri < row.length then
    let term := normalize (row.getD ti [])
    let translation := strip (row.getD tri [])
    if term ≠ [] ∧ translation ≠ [] then
      (dput p.1 term (entryFor lang header tri ni row), p.2 + 1)
    else p
  else p

/-- The content of a glossary CSV file as seen by `load_glossary`:
the open call raises; or csv.reader yields exactly the given rows (an
empty list makes the header read raise StopIteration); or csv.reader
yields the given rows and then raises a mid-iteration exception — the
file object decodes lazily, so a UnicodeDecodeError (or csv.Error)
surfaces only when the bad portion of the file is reached, after the
yielded rows were already committed to the live dict. -/
inductive CsvFile
  | unreadable
  | rows (rs : List (List Str))
  | rowsRaise (rs : List (List Str))

/-- `GlossaryManager.load_glossary`.  The `data` dict of the target
language is cleared first; a readable file with a header row gets its
stripped header stored; when the required columns are present the data
rows are processed (each valid row committed to the live dict as it is
read) and on reaching the end of the file the table metadata is
published.  Otherwise the call fails: with the clear (and stored
header) left in place, and — when a mid-iteration exception lands in
the generic handler — with the rows committed before the exception
still in the dict, the local row counter discarded and the metadata
untouched. -/
def load_glossary (st : GlossaryManager) (file : CsvFile) (lang : Lang)
    (fpath : Str) (now : Nat) : Bool × GlossaryManager :=
  let st1 := setTable st lang { getTable st lang with data := [] }
  match file with
  | .unreadable => (false, st1)
  | .rows [] => (false, st1)
  | .rowsRaise [] => (false, st1)
  | .rows (rawHeader :: dataRows) =>
    let header := rawHeader.map strip
    let st2 := setTable st1 lang { getTable st1 lang with header := some header }
    match schemaOf lang header with
    | none => (false, st2)
    | some (ti, tri, ni) =>
      let r := dataRows.foldl (rowStep lang header ti tri ni) ([], 0)
      (true, setTable st2 lang
        { getTable st2 lang with
            data := r.1
            total_terms := r.2
            last_updated := some now
            path := some fpath })
  | .rowsRaise (rawHeader :: dataRows) =>
    let header := rawHeader.map strip
    let st2 := setTable st1 lang { getTable st1 lang with header := some header }
    match schemaOf lang header with
    | none => (false, st2)
    | some (ti, tri, ni) =>
      let r := dataRows.foldl (rowStep lang header ti tri ni) ([], 0)
      (false, setTable st2 lang { getTable st2 lang with data := r.1 })

/-- `GlossaryManager.set_current_language`. -/
def set_current_language (st : GlossaryManager) (lang : Lang) :
    Bool × GlossaryManager :=
  (true, { st with current_language := lang })

/-- `GlossaryManager.get_term`: normalize the argument exactly as
`load_glossary` normalizes term keys, then look it up in the current
language table. -/
def get_term (st : GlossaryManager) (term : Str) : Option Entry :=
  dget (getTable st st.current_language).data (normalize term)

/-- `GlossaryManager.get_glossary_info`: the `total_terms` and
`last_updated` fields of the current language table. -/
def get_glossary_info (st : GlossaryManager) : Nat × Option Nat :=
  ((getTable st st.current_language).total_terms,
   (getTable st st.current_language).last_updated)

/-- One element of the list returned by `find_terms_in_text`: the dict
`{"term": ..., "translation": ..., "notes": ...}`. -/
structure Match where
  term : Str
  translation : Str
  notes : Str
deriving DecidableEq

/-- Building one result dict: `glossary_data[key]` followed by the
`["translation"]` and `["notes"]` accesses.  A missing dict key is a
Python KeyError, modelled as `Except.error`. -/
def mkMatch (gd : List (Str × Entry)) (display : Str) (key : Str) :
    Except Unit Match :=
  match dget gd key with
  | none => .error ()
  | some e =>
    match dget e (lit "translation"), dget e (lit "notes") with
    | some tr, some no => .ok ⟨display, tr, no⟩
    | _, _ => .error ()

/-- The hardcoded exact-case exception list of the English matcher. -/
def case_sensitive_terms : List Str := [lit "AND", lit "WHO"]

/-- The punctuation characters stripped from Korean whitespace tokens:
the literal `.,!?:;"'()[]{}<>`. -/
def koPunct : Str :=
  ['.', ',', '!', '?', ':', ';', '"', Char.ofNat 39, '(', ')',
   '[', ']', Char.ofNat 123, Char.ofNat 125, '<', '>']

/-- One scanning pass of `find_terms_in_text`: walk the candidate list,
and for each candidate passing its guard whose dedup key is not yet in
`found_terms`, append the built result dict and record the key.  All
five passes of the source (the English word-token, multi-word and
exact-case passes, and the Korean token and substring passes) are
instances of this loop. -/
def scanLoop (gd : List (Str × Entry)) (cond : Str → Bool) (key : Str → Str) :
    List Str → List Str → List Match → Except Unit (List Str × List Match)
  | [], found, results => .ok (found, results)
  | w :: ws, found, results =>
    if cond w = true ∧ key w ∉ found then
      match mkMatch gd w (key w) with
      | .error e => .error e
      | .ok m => scanLoop gd cond key ws (key w :: found) (results ++ [m])
    else scanLoop gd cond key ws found results

/-- `GlossaryManager.find_terms_in_text`.  Empty text or an empty data
dict short-circuits to the empty list; otherwise the passes of the
current language run in source order over the lower-cased text. -/
def find_terms_in_text (st : GlossaryManager) (text : Str) :
    Except Unit (List Match) :=
  let gd := (getTable st st.current_language).data
  if text = [] ∨ gd = [] then .ok []
  else
    let tl := lowerStr text
    match st.current_language with
    | .en =>
      match scanLoop gd
          (fun w => dmem gd w && !(case_sensitive_terms.contains (upperStr w)))
          (fun w => w) (wordTokens tl) [] [] with
      | .error e => .error e
      | .ok p1 =>
        match scanLoop gd (fun t => t.contains ' ' && substr t tl)
            (fun t => t) (dkeys gd) p1.1 p1.2 with
        | .error e => .error e
        | .ok p2 =>
          match scanLoop gd
              (fun sp => dmem gd (lowerStr sp) && (wordTokens text).contains sp)
              lowerStr case_sensitive_terms p2.1 p2.2 with
          | .error e => .error e
          | .ok p3 => .ok p3.2
    | .ko =>
      match scanLoop gd (fun w => dmem gd w) (fun w => w)
          ((splitWs tl).map (stripChars koPunct)) [] [] with
      | .error e => .error e
      | .ok p1 =>
        match scanLoop gd (fun t => substr t tl) (fun t => t) (dkeys gd)
            p1.1 p1.2 with
        | .error e => .error e
        | .ok p2 => .ok p2.2
    | .zh =>
      match scanLoop gd (fun t => substr t tl) (fun t => t) (dkeys gd) [] [] with
      | .error e => .error e
      | .ok p1 => .ok p1.2

/-- The validity condition `load_glossary` applies to one data row: enough
columns to reach the term and translation indices, a non-empty normalized
term and a non-empty stripped translation. -/
def validRow (ti tri : Nat) (row : List Str) : Bool :=
  decide (max ti tri < row.length) &&
  decide (normalize (row.getD ti []) ≠ []) &&
  decide (strip (row.getD tri []) ≠ [])

instance {ε α : Type} [DecidableEq ε] [DecidableEq α] : DecidableEq (Except ε α) :=
  fun a b =>
    match a, b with
    | .error e1, .error e2 =>
      if h : e1 = e2 then isTrue (by rw [h])
      else isFalse (fun hc => h (by cases hc; rfl))
    | .ok x, .ok y =>
      if h : x = y then isTrue (by rw [h])
      else isFalse (fun hc => h (by cases hc; rfl))
    | .error _, .ok _ => isFalse (fun hc => Except.noConfusion hc)
    | .ok _, .error _ => isFalse (fun hc => Except.noConfusion hc)

theorem getTable_setTable_same (st : GlossaryManager) (l : Lang) (t : LangTable) :
    getTable (setTable st l t) l = t := by
  cases l <;> rfl

theorem current_setTable (st : GlossaryManager) (l : Lang) (t : LangTable) :
    (setTable st l t).current_language = st.current_language := by
  cases l <;> rfl

theorem dget_isSome_iff (d : List (Str × Entry)) (q : Str) :
    (dget d q).isSome = true ↔ q ∈ dkeys d := by
  induction d with
  | nil => simp [dget, dkeys]
  | cons p t ih =>
    obtain ⟨k, v⟩ := p
    by_cases h : k = q
    · subst h
      simp [dget, dkeys]
    · simp [dget, dkeys, h, ih, Ne.symm h]

theorem dmem_iff (d : List (Str × Entry)) (q : Str) :
    dmem d q = true ↔ q ∈ dkeys d := by
  simp [dmem, dget_isSome_iff]

theorem dkeys_dput (d : List (Str × Entry)) (k : Str) (v : Entry) :
    dkeys (dput d k v) = if k ∈ dkeys d then dkeys d else dkeys d ++ [k] := by
  induction d with
  | nil => simp [dput, dkeys]
  | cons p t ih =>
    obtain ⟨k0, v0⟩ := p
    by_cases h : k0 = k
    · subst h
      simp [dput, dkeys]
    · simp only [dput, if_neg h, dkeys, List.map_cons] at ih ⊢
      rw [ih]
      by_cases hm : k ∈ List.map Prod.fst t
      · rw [if_pos hm, if_pos (List.mem_cons_of_mem _ hm)]
      · rw [if_neg hm, if_neg (by simp [List.mem_cons, hm, Ne.symm h])]
        simp

theorem length_dput_of_mem (d : List (Str × Entry)) (k : Str) (v : Entry)
    (h : k ∈ dkeys d) : (dput d k v).length = d.length := by
  induction d with
  | nil => simp [dkeys] at h
  | cons p t ih =>
    obtain ⟨k0, v0⟩ := p
    by_cases hk : k0 = k
    · subst hk
      simp [dput]
    · simp only [dkeys, List.map_cons, List.mem_cons] at h
      rcases h with h | h
      · exact absurd h.symm hk
      · simp [dput, hk, ih h]

theorem length_dput_of_not_mem (d : List (Str × Entry)) (k : Str) (v : Entry)
    (h : k ∉ dkeys d) : (dput d k v).length = d.length + 1 := by
  induction d with
  | nil => simp [dput]
  | cons p t ih =>
    obtain ⟨k0, v0⟩ := p
    simp only [dkeys, List.map_cons, List.mem_cons] at h
    push_neg at h
    simp [dput, Ne.symm h.1, ih h.2]

theorem rowStep_eq (lang : Lang) (header : List Str) (ti tri : Nat)
    (ni : Option Nat) (p : List (Str × Entry) × Nat) (row : List Str) :
    rowStep lang header ti tri ni p row =
      if validRow ti tri row then
        (dput p.1 (normalize (row.getD ti [])) (entryFor lang header tri ni row),
         p.2 + 1)
      else p := by
  unfold rowStep validRow
  by_cases h1 : max ti tri < row.length
  · by_cases h2 : normalize (row.getD ti []) ≠ [] ∧ strip (row.getD tri []) ≠ []
    · simp [h1, h2.1, h2.2]
    · push_neg at h2
      by_cases h3 : normalize (row.getD ti []) = []
      · simp [h1, h3]
      · simp [h1, h3, h2 h3]
  · simp [h1]

theorem foldl_rowStep_count (lang : Lang) (header : List Str) (ti tri : Nat)
    (ni : Option Nat) (rows : List (List Str)) (d0 : List (Str × Entry)) (c0 : Nat) :
    (rows.foldl (rowStep lang header ti tri ni) (d0, c0)).2 =
      c0 + (rows.filter (validRow ti tri)).length := by
  induction rows generalizing d0 c0 with
  | nil => simp
  | cons row rest ih =>
    rw [List.foldl_cons, rowStep_eq, List.filter_cons]
    by_cases h : validRow ti tri row
    · simp only [h, if_true, ih, List.length_cons]
      omega
    · simp [h, ih]

theorem foldl_rowStep_data (lang : Lang) (header : List Str) (ti tri : Nat)
    (ni : Option Nat) (rows : List (List Str)) (d0 : List (Str × Entry)) (c0 : Nat) :
    (rows.foldl (rowStep lang header ti tri ni) (d0, c0)).1 =
      (rows.filter (validRow ti tri)).foldl
        (fun d row =>
          dput d (normalize (row.getD ti [])) (entryFor lang header tri ni row))
        d0 := by
  induction rows generalizing d0 c0 with
  | nil => simp
  | cons row rest ih =>
    rw [List.foldl_cons, rowStep_eq, List.filter_cons]
    by_cases h : validRow ti tri row
    · simp only [h, if_true, ih, List.foldl_cons]
    · simp [h, ih]

theorem foldl_dput_length_le {β : Type} (keyF : β → Str) (entF : β → Entry)
    (l : List β) (d0 : List (Str × Entry)) :
    (l.foldl (fun d b => dput d (keyF b) (entF b)) d0).length ≤
      d0.length + l.length := by
  induction l generalizing d0 with
  | nil => simp
  | cons b rest ih =>
    rw [List.foldl_cons]
    refine le_trans (ih _) ?_
    by_cases h : keyF b ∈ dkeys d0
    · rw [length_dput_of_mem _ _ _ h]
      simp only [List.length_cons]
      omega
    · rw [length_dput_of_not_mem _ _ _ h]
      simp only [List.length_cons]
      omega

theorem mem_dkeys_dput (d : List (Str × Entry)) (k : Str) (v : Entry) (q : Str) :
    q ∈ dkeys (dput d k v) ↔ q = k ∨ q ∈ dkeys d := by
  rw [dkeys_dput]
  by_cases h : k ∈ dkeys d
  · simp only [h, if_true]
    constructor
    · exact Or.inr
    · rintro (rfl | hq)
      · exact h
      · exact hq
  · simp [h, or_comm]

theorem foldl_dput_length_eq {β : Type} (keyF : β → Str) (entF : β → Entry)
    (l : List β) (d0 : List (Str × Entry))
    (h : (l.foldl (fun d b => dput d (keyF b) (entF b)) d0).length =
      d0.length + l.length) :
    (l.map keyF).Nodup ∧ ∀ q ∈ l.map keyF, q ∉ dkeys d0 := by
  induction l generalizing d0 with
  | nil => simp
  | cons b rest ih =>
    rw [List.foldl_cons] at h
    by_cases hm : keyF b ∈ dkeys d0
    · exfalso
      have hle := foldl_dput_length_le keyF entF rest (dput d0 (keyF b) (entF b))
      rw [length_dput_of_mem _ _ _ hm] at hle
      rw [h] at hle
      simp only [List.length_cons] at hle
      omega
    · have hlen := length_dput_of_not_mem d0 (keyF b) (entF b) hm
      have h2 : (rest.foldl (fun d b => dput d (keyF b) (entF b))
          (dput d0 (keyF b) (entF b))).length =
          (dput d0 (keyF b) (entF b)).length + rest.length := by
        rw [hlen, h]
        simp only [List.length_cons]
        omega
      obtain ⟨hnd, hdis⟩ := ih _ h2
      have hb : keyF b ∉ rest.map keyF := by
        intro hc
        have := hdis _ hc
        rw [mem_dkeys_dput] at this
        exact this (Or.inl rfl)
      refine ⟨List.nodup_cons.2 ⟨hb, hnd⟩, ?_⟩
      intro q hq
      simp only [List.map_cons, List.mem_cons] at hq
      rcases hq with rfl | hq
      · exact hm
      · intro hc
        exact hdis _ hq ((mem_dkeys_dput _ _ _ _).2 (Or.inr hc))

theorem toNat_ofNat_small (n : Nat) (h : n < 55296) : (Char.ofNat n).toNat = n := by
  unfold Char.ofNat
  rw [dif_pos (Or.inl h)]
  simp [Char.ofNatAux, Char.toNat, UInt32.toNat]

theorem lowerChar_idem (c : Char) : lowerChar (lowerChar c) = lowerChar c := by
  unfold lowerChar
  by_cases h : 65 ≤ c.toNat ∧ c.toNat ≤ 90
  · rw [if_pos h]
    have ht : (Char.ofNat (c.toNat + 32)).toNat = c.toNat + 32 :=
      toNat_ofNat_small _ (by omega)
    rw [if_neg (by omega)]
  · rw [if_neg h, if_neg h]

theorem lower_text_chars_fixed (s : Str) :
    ∀ c ∈ lowerStr s, lowerChar c = c := by
  intro c hc
  simp only [lowerStr, List.mem_map] at hc
  obtain ⟨c0, _, rfl⟩ := hc
  exact lowerChar_idem c0

theorem isWordChar_not_space (c : Char) (h : isWordChar c = true) :
    isSpace c = false := by
  simp only [isWordChar, Bool.or_eq_true, Bool.and_eq_true, decide_eq_true_eq,
    beq_iff_eq] at h
  simp only [isSpace, Bool.or_eq_false_iff, decide_eq_false_iff_not]
  omega

theorem dropWhile_eq_self_of (p : Char → Bool) (l : Str)
    (h : ∀ c ∈ l, p c = false) : l.dropWhile p = l := by
  cases l with
  | nil => rfl
  | cons c t => simp [List.dropWhile_cons, h c (by simp)]

theorem dropEnds_eq_self_of (p : Char → Bool) (s : Str)
    (h : ∀ c ∈ s, p c = false) : dropEnds p s = s := by
  unfold dropEnds
  rw [dropWhile_eq_self_of p s h,
    dropWhile_eq_self_of p s.reverse (fun c hc => h c (List.mem_reverse.1 hc)),
    List.reverse_reverse]

theorem map_eq_self_of (f : Char → Char) (s : Str) (h : ∀ c ∈ s, f c = c) :
    s.map f = s := by
  induction s with
  | nil => rfl
  | cons c t ih =>
    simp only [List.map_cons, h c (by simp)]
    rw [ih (fun c0 hc0 => h c0 (by simp [hc0]))]

theorem norm_stable_of (w : Str) (h1 : ∀ c ∈ w, isSpace c = false)
    (h2 : ∀ c ∈ w, lowerChar c = c) : normalize w = w := by
  unfold normalize strip
  rw [dropEnds_eq_self_of isSpace w h1]
  exact map_eq_self_of lowerChar w h2

theorem mem_dropEnds (p : Char → Bool) (s : Str) (c : Char)
    (h : c ∈ dropEnds p s) : c ∈ s := by
  unfold dropEnds at h
  rw [List.mem_reverse] at h
  have h2 := (List.dropWhile_sublist p).mem h
  rw [List.mem_reverse] at h2
  exact (List.dropWhile_sublist p).mem h2

theorem wordTokensAux_wordChar (s : Str) :
    ∀ acc, (∀ c ∈ acc, isWordChar c = true) →
    ∀ t ∈ wordTokensAux s acc, ∀ c ∈ t, isWordChar c = true := by
  induction s with
  | nil =>
    intro acc hacc t ht c hc
    unfold wordTokensAux at ht
    by_cases h : acc = []
    · simp [h] at ht
    · rw [if_neg h] at ht
      simp only [List.mem_singleton] at ht
      subst ht
      exact hacc c (List.mem_reverse.1 hc)
  | cons a rest ih =>
    intro acc hacc t ht c hc
    unfold wordTokensAux at ht
    by_cases hw : isWordChar a
    · rw [if_pos hw] at ht
      refine ih (a :: acc) ?_ t ht c hc
      intro c0 hc0
      rcases List.mem_cons.1 hc0 with rfl | hc0
      · exact hw
      · exact hacc c0 hc0
    · rw [if_neg hw] at ht
      by_cases he : acc = []
      · rw [if_pos he] at ht
        exact ih [] (by simp) t ht c hc
      · rw [if_neg he] at ht
        rcases List.mem_cons.1 ht with rfl | ht
        · exact hacc c (List.mem_reverse.1 hc)
        · exact ih [] (by simp) t ht c hc

theorem wordTokensAux_chars (p : Char → Prop) (s : Str) :
    ∀ acc, (∀ c ∈ s, p c) → (∀ c ∈ acc, p c) →
    ∀ t ∈ wordTokensAux s acc, ∀ c ∈ t, p c := by
  induction s with
  | nil =>
    intro acc _ hacc t ht c hc
    unfold wordTokensAux at ht
    by_cases h : acc = []
    · simp [h] at ht
    · rw [if_neg h] at ht
      simp only [List.mem_singleton] at ht
      subst ht
      exact hacc c (List.mem_reverse.1 hc)
  | cons a rest ih =>
    intro acc hs hacc t ht c hc
    unfold wordTokensAux at ht
    have hs2 : ∀ c ∈ rest, p c := fun c0 hc0 => hs c0 (by simp [hc0])
    by_cases hw : isWordChar a
    · rw [if_pos hw] at ht
      refine ih (a :: acc) hs2 ?_ t ht c hc
      intro c0 hc0
      rcases List.mem_cons.1 hc0 with rfl | hc0
      · exact hs c0 (by simp)
      · exact hacc c0 hc0
    · rw [if_neg hw] at ht
      by_cases he : acc = []
      · rw [if_pos he] at ht
        exact ih [] hs2 (by simp) t ht c hc
      · rw [if_neg he] at ht
        rcases List.mem_cons.1 ht with rfl | ht
        · exact hacc c (List.mem_reverse.1 hc)
        · exact ih [] hs2 (by simp) t ht c hc

theorem splitWsAux_nonspace (s : Str) :
    ∀ acc, (∀ c ∈ acc, isSpace c = false) →
    ∀ t ∈ splitWsAux s acc, ∀ c ∈ t, isSpace c = false := by
  induction s with
  | nil =>
    intro acc hacc t ht c hc
    unfold splitWsAux at ht
    by_cases h : acc = []
    · simp [h] at ht
    · rw [if_neg h] at ht
      simp only [List.mem_singleton] at ht
      subst ht
      exact hacc c (List.mem_reverse.1 hc)
  | cons a rest ih =>
    intro acc hacc t ht c hc
    unfold splitWsAux at ht
    by_cases hw : isSpace a
    · rw [if_pos hw] at ht
      by_cases he : acc = []
      · rw [if_pos he] at ht
        exact ih [] (by simp) t ht c hc
      · rw [if_neg he] at ht
        rcases List.mem_cons.1 ht with rfl | ht
        · exact hacc c (List.mem_reverse.1 hc)
        · exact ih [] (by simp) t ht c hc
    · rw [if_neg hw] at ht
      refine ih (a :: acc) ?_ t ht c hc
      intro c0 hc0
      rcases List.mem_cons.1 hc0 with rfl | hc0
      · exact Bool.not_eq_true _ ▸ (by simpa using hw)
      · exact hacc c0 hc0

theorem splitWsAux_chars (p : Char → Prop) (s : Str) :
    ∀ acc, (∀ c ∈ s, p c) → (∀ c ∈ acc, p c) →
    ∀ t ∈ splitWsAux s acc, ∀ c ∈ t, p c := by
  induction s with
  | nil =>
    intro acc _ hacc t ht c hc
    unfold splitWsAux at ht
    by_cases h : acc = []
    · simp [h] at ht
    · rw [if_neg h] at ht
      simp only [List.mem_singleton] at ht
      subst ht
      exact hacc c (List.mem_reverse.1 hc)
  | cons a rest ih =>
    intro acc hs hacc t ht c hc
    unfold splitWsAux at ht
    have hs2 : ∀ c ∈ rest, p c := fun c0 hc0 => hs c0 (by simp [hc0])
    by_cases hw : isSpace a
    · rw [if_pos hw] at ht
      by_cases he : acc = []
      · rw [if_pos he] at ht
        exact ih [] hs2 (by simp) t ht c hc
      · rw [if_neg he] at ht
        rcases List.mem_cons.1 ht with rfl | ht
        · exact hacc c (List.mem_reverse.1 hc)
        · exact ih [] hs2 (by simp) t ht c hc
    · rw [if_neg hw] at ht
      refine ih (a :: acc) hs2 ?_ t ht c hc
      intro c0 hc0
      rcases List.mem_cons.1 hc0 with rfl | hc0
      · exact hs c0 (by simp)
      · exact hacc c0 hc0

/-- A token of the lower-cased text produced by the English word-token
pass is already normalized: it has no whitespace and no capitals. -/
theorem wordToken_normalize (s w : Str) (hw : w ∈ wordTokens (lowerStr s)) :
    normalize w = w := by
  refine norm_stable_of w ?_ ?_
  · intro c hc
    exact isWordChar_not_space c
      (wordTokensAux_wordChar (lowerStr s) [] (by simp) w hw c hc)
  · intro c hc
    exact wordTokensAux_chars (fun c => lowerChar c = c) (lowerStr s) []
      (lower_text_chars_fixed s) (by simp) w hw c hc

/-- A cleaned Korean whitespace token of the lower-cased text is already
normalized. -/
theorem koWord_normalize (s w0 : Str) (hw0 : w0 ∈ splitWs (lowerStr s)) :
    normalize (stripChars koPunct w0) = stripChars koPunct w0 := by
  refine norm_stable_of _ ?_ ?_
  · intro c hc
    exact splitWsAux_nonspace (lowerStr s) [] (by simp) w0 hw0 c
      (mem_dropEnds _ w0 c hc)
  · intro c hc
    exact splitWsAux_chars (fun c => lowerChar c = c) (lowerStr s) []
      (lower_text_chars_fixed s) (by simp) w0 hw0 c
      (mem_dropEnds _ w0 c hc)

theorem mkMatch_ok (gd : List (Str × Entry)) (display key : Str) (m : Match)
    (h : mkMatch gd display key = .ok m) :
    m.term = display ∧ key ∈ dkeys gd := by
  unfold mkMatch at h
  split at h
  · exact absurd h (by simp)
  · rename_i e heq
    split at h
    · cases h
      exact ⟨rfl, (dget_isSome_iff gd key).1 (by rw [heq]; rfl)⟩
    · exact absurd h (by simp)

/-- Invariant of one scanning pass: when every candidate normalizes to
its dedup key, an `ok` outcome keeps the three facts that (a) every
emitted normalized term is recorded in `found_terms`, (b) every emitted
normalized term is a key of the data dict, and (c) the emitted
normalized terms are pairwise distinct; moreover `found_terms` only
grows. -/
theorem scanLoop_spec (gd : List (Str × Entry)) (cond : Str → Bool)
    (key : Str → Str) (ws : List Str) :
    ∀ found results found2 results2,
    (∀ w ∈ ws, normalize w = key w) →
    (∀ m ∈ results, normalize m.term ∈ found) →
    (∀ m ∈ results, normalize m.term ∈ dkeys gd) →
    (results.map (fun m => normalize m.term)).Nodup →
    scanLoop gd cond key ws found results = .ok (found2, results2) →
    (∀ m ∈ results2, normalize m.term ∈ found2) ∧
    (∀ m ∈ results2, normalize m.term ∈ dkeys gd) ∧
    (results2.map (fun m => normalize m.term)).Nodup ∧
    (∀ x ∈ found, x ∈ found2) := by
  induction ws with
  | nil =>
    intro found results found2 results2 _ hin hmem hnd h
    unfold scanLoop at h
    cases h
    exact ⟨hin, hmem, hnd, fun x hx => hx⟩
  | cons w ws ih =>
    intro found results found2 results2 hkey hin hmem hnd h
    have hkeyTail : ∀ w0 ∈ ws, normalize w0 = key w0 :=
      fun w0 hw0 => hkey w0 (by simp [hw0])
    unfold scanLoop at h
    by_cases hc : cond w = true ∧ key w ∉ found
    · rw [if_pos hc] at h
      cases hmk : mkMatch gd w (key w) with
      | error e => rw [hmk] at h; exact absurd h (by simp)
      | ok m =>
        rw [hmk] at h
        obtain ⟨hterm, hkmem⟩ := mkMatch_ok gd w (key w) m hmk
        have hnw : normalize m.term = key w := by
          rw [hterm]
          exact hkey w (by simp)
        have hres := ih (key w :: found) (results ++ [m]) found2 results2
          hkeyTail
          (by
            intro m0 hm0
            rcases List.mem_append.1 hm0 with hm0 | hm0
            · exact List.mem_cons_of_mem _ (hin m0 hm0)
            · simp only [List.mem_singleton] at hm0
              subst hm0
              rw [hnw]
              exact List.mem_cons_self _ _)
          (by
            intro m0 hm0
            rcases List.mem_append.1 hm0 with hm0 | hm0
            · exact hmem m0 hm0
            · simp only [List.mem_singleton] at hm0
              subst hm0
              rw [hnw]
              exact hkmem)
          (by
            rw [List.map_append]
            simp only [List.map_cons, List.map_nil]
            rw [List.nodup_append]
            refine ⟨hnd, List.nodup_singleton _, ?_⟩
            intro x hx hx2
            simp only [List.mem_singleton] at hx2
            subst hx2
            simp only [List.mem_map] at hx
            obtain ⟨m0, hm0, hx⟩ := hx
            rw [hnw] at hx
            exact hc.2 (hx ▸ hin m0 hm0))
          h
        exact ⟨hres.1, hres.2.1, hres.2.2.1,
          fun x hx => hres.2.2.2 x (List.mem_cons_of_mem _ hx)⟩
    · rw [if_neg hc] at h
      exact ih found results found2 results2 hkeyTail hin hmem hnd h

/-- A well-formed English glossary CSV whose keys are `and`, `who` and
`operator` (the first two are on the exact-case exception list). -/
def enDemoFile : CsvFile := .rows
  [[lit "Term", lit "Translation", lit "Notes"],
   [lit "and", lit "かつ", lit "a"],
   [lit "who", lit "誰", lit "b"],
   [lit "operator", lit "演算子", lit "c"]]

/-- The manager state after loading `enDemoFile` for English (the
current language is already `en`). -/
def enDemo : GlossaryManager :=
  (load_glossary GlossaryManager.init enDemoFile .en (lit "en.csv") 0).2

/-- A well-formed Korean glossary CSV with the required header pair and
one entry. -/
def koDemoFile : CsvFile :=
  .rows [[lit "ハングル", lit "日本語"], [lit "테스트", lit "テスト"]]

/-- The manager state after loading `koDemoFile` for Korean and
switching the active language to `ko`. -/
def koDemo : GlossaryManager :=
  (set_current_language
    (load_glossary GlossaryManager.init koDemoFile .ko (lit "ko.csv") 0).2
    Lang.ko).2

/-- A well-formed Chinese glossary CSV with the required header pair and
one multi-character entry. -/
def zhDemoFile : CsvFile :=
  .rows [[lit "中文", lit "日本語"], [lit "你好", lit "こんにちは"]]

/-- The manager state after loading `zhDemoFile` for Chinese and
switching the active language to `zh`. -/
def zhDemo : GlossaryManager :=
  (set_current_language
    (load_glossary GlossaryManager.init zhDemoFile .zh (lit "zh.csv") 0).2
    Lang.zh).2

/-- C1: the claim fails on the code.  With the Korean glossary loaded by
`load_glossary` (which stores whole-row `column_data` entries keyed by
the literal header names), a text containing a glossary term makes
`find_terms_in_text` perform the dict access `["translation"]` on an
entry that has no such key: a KeyError is raised instead of a result
list.  A text with no match does return the empty list. -/
theorem find_terms_ko_match_raises :
    (load_glossary GlossaryManager.init koDemoFile .ko (lit "ko.csv") 0).1 = true ∧
    (get_term koDemo (lit "테스트")).isSome = true ∧
    find_terms_in_text koDemo (lit "테스트") = .error () ∧
    find_terms_in_text koDemo (lit "없는 말") = .ok [] := by
  decide

/-- C3: the claim fails on the code.  With the Chinese glossary loaded
by `load_glossary`, scanning a text that contains the key `你好` as a
substring does not yield a Match list at all: the substring scan finds
the key, but building the result dict performs `["translation"]` on the
whole-row `column_data` entry and raises KeyError. -/
theorem find_terms_zh_match_raises :
    (load_glossary GlossaryManager.init zhDemoFile .zh (lit "zh.csv") 0).1 = true ∧
    substr (lit "你好") (lowerStr (lit "a你好好b")) = true ∧
    find_terms_in_text zhDemo (lit "a你好好b") = .error () ∧
    find_terms_in_text zhDemo (lit "再见") = .ok [] := by
  decide

/-- C4: scanning `"The AND operator and the who"` against the English
glossary with keys `and`, `who` (both exact-case listed) and `operator`
yields exactly a Match for `operator` and a Match for `AND` displayed in
exact case; the lowercase occurrences of `and`, `who` and `the` yield
nothing. -/
theorem find_terms_case_sensitive_example :
    find_terms_in_text enDemo (lit "The AND operator and the who") =
      .ok [⟨lit "operator", lit "演算子", lit "c"⟩,
           ⟨lit "AND", lit "かつ", lit "a"⟩] ∧
    (∀ m ∈ [Match.mk (lit "operator") (lit "演算子") (lit "c"),
            Match.mk (lit "AND") (lit "かつ") (lit "a")],
      m.term ≠ lit "and" ∧ m.term ≠ lit "who" ∧ m.term ≠ lit "the") := by
  decide

/-- C7: `get_term` applies to its argument the same strip-then-lower
normalization that `load_glossary` applies to term keys, so any two
inputs with the same normalized form give the same lookup result. -/
theorem get_term_normalization_stable (st : GlossaryManager) (x y : Str)
    (h : normalize x = normalize y) : get_term st x = get_term st y := by
  unfold get_term
  rw [h]

/-- Witness for C7 at the concrete inputs of the spec. -/
theorem get_term_normalization_stable_witness :
    (normalize (lit "Term") = normalize (lit " term ") ∧
      get_term enDemo (lit "Term") = get_term enDemo (lit " term ")) ∧
    (normalize (lit " term ") = normalize (lit "TERM") ∧
      get_term enDemo (lit " term ") = get_term enDemo (lit "TERM")) :=
  ⟨⟨by decide, get_term_normalization_stable enDemo (lit "Term") (lit " term ")
      (by decide)⟩,
   ⟨by decide, get_term_normalization_stable enDemo (lit " term ") (lit "TERM")
      (by decide)⟩⟩

/-- C2: when `load_glossary` rejects a file because the required header
columns for the language are absent, the call returns failure and the
`data` dict of that language is the empty dict produced by the clear at
call start, whatever it held before. -/
theorem load_rejected_schema_clears (st : GlossaryManager) (lang : Lang)
    (rawHeader : List Str) (dataRows : List (List Str)) (fpath : Str) (now : Nat)
    (h : schemaOf lang (rawHeader.map strip) = none) :
    (load_glossary st (.rows (rawHeader :: dataRows)) lang fpath now).1 = false ∧
    (getTable (load_glossary st (.rows (rawHeader :: dataRows)) lang fpath now).2
      lang).data = [] := by
  simp [load_glossary, h, getTable_setTable_same]

/-- Witness for C2: a Korean table holding one entry is wiped by a load
whose header lacks the required columns. -/
theorem load_rejected_schema_clears_witness :
    schemaOf .ko ([lit "x", lit "y"].map strip) = none ∧
    (getTable koDemo .ko).data ≠ [] ∧
    (load_glossary koDemo (.rows [[lit "x", lit "y"], [lit "a", lit "b"]]) .ko
      (lit "bad.csv") 7).1 = false ∧
    (getTable (load_glossary koDemo (.rows [[lit "x", lit "y"], [lit "a", lit "b"]])
      .ko (lit "bad.csv") 7).2 .ko).data = [] :=
  ⟨by decide, by decide,
   (load_rejected_schema_clears koDemo .ko [lit "x", lit "y"] [[lit "a", lit "b"]]
      (lit "bad.csv") 7 (by decide)).1,
   (load_rejected_schema_clears koDemo .ko [lit "x", lit "y"] [[lit "a", lit "b"]]
      (lit "bad.csv") 7 (by decide)).2⟩

/-- C9 counterexample: the claim's consequence that a failed load
leaves the data mapping empty is false.  After a successful English
load of three terms, a reload from a valid file whose reader raises
after yielding one data row fails, yet the data dict is not empty: it
holds the row committed before the exception, while the info still
reports the stale count of three. -/
theorem load_failure_partial_data :
    (load_glossary enDemo
      (.rowsRaise [[lit "term", lit "translation"], [lit "beta", lit "y"]])
      .en (lit "b.csv") 5).1 = false ∧
    (getTable (load_glossary enDemo
      (.rowsRaise [[lit "term", lit "translation"], [lit "beta", lit "y"]])
      .en (lit "b.csv") 5).2 .en).data ≠ [] ∧
    (getTable (load_glossary enDemo
      (.rowsRaise [[lit "term", lit "translation"], [lit "beta", lit "y"]])
      .en (lit "b.csv") 5).2 .en).data
      = [(lit "beta", [(lit "translation", lit "y"), (lit "notes", [])])] ∧
    (getTable (load_glossary enDemo
      (.rowsRaise [[lit "term", lit "translation"], [lit "beta", lit "y"]])
      .en (lit "b.csv") 5).2 .en).total_terms = 3 := by
  decide

/-- C9 (amended): a failed `load_glossary` call, whatever its cause,
leaves the `total_terms`, `last_updated` and `path` fields of the
language table unchanged; only the `data` dict — cleared at call start
and, when the reader raises mid-iteration, repopulated with the rows
committed before the exception — and the stored header can change. -/
theorem load_failure_frame (st : GlossaryManager) (file : CsvFile) (lang : Lang)
    (fpath : Str) (now : Nat)
    (h : (load_glossary st file lang fpath now).1 = false) :
    (getTable (load_glossary st file lang fpath now).2 lang).total_terms =
      (getTable st lang).total_terms ∧
    (getTable (load_glossary st file lang fpath now).2 lang).last_updated =
      (getTable st lang).last_updated ∧
    (getTable (load_glossary st file lang fpath now).2 lang).path =
      (getTable st lang).path := by
  cases file with
  | unreadable => simp [load_glossary, getTable_setTable_same]
  | rows rs =>
    cases rs with
    | nil => simp [load_glossary, getTable_setTable_same]
    | cons rawHeader dataRows =>
      cases hs : schemaOf lang (rawHeader.map strip) with
      | none => simp [load_glossary, hs, getTable_setTable_same]
      | some tpl =>
        exfalso
        obtain ⟨ti, tri, ni⟩ := tpl
        simp [load_glossary, hs] at h
  | rowsRaise rs =>
    cases rs with
    | nil => simp [load_glossary, getTable_setTable_same]
    | cons rawHeader dataRows =>
      cases hs : schemaOf lang (rawHeader.map strip) with
      | none => simp [load_glossary, hs, getTable_setTable_same]
      | some tpl =>
        obtain ⟨ti, tri, ni⟩ := tpl
        simp [load_glossary, hs, getTable_setTable_same]

/-- Witness for C9: after a successful English load of three terms, a
reload that fails mid-iteration keeps the positive term count and the
old timestamp and path, while the data dict holds only the row
committed before the exception. -/
theorem load_failure_frame_witness :
    (load_glossary enDemo
      (.rowsRaise [[lit "term", lit "translation"], [lit "gamma", lit "z"]])
      .en (lit "g.csv") 9).1 = false ∧
    (getTable (load_glossary enDemo
      (.rowsRaise [[lit "term", lit "translation"], [lit "gamma", lit "z"]])
      .en (lit "g.csv") 9).2 .en).total_terms = 3 ∧
    (getTable (load_glossary enDemo
      (.rowsRaise [[lit "term", lit "translation"], [lit "gamma", lit "z"]])
      .en (lit "g.csv") 9).2 .en).last_updated = some 0 ∧
    (getTable (load_glossary enDemo
      (.rowsRaise [[lit "term", lit "translation"], [lit "gamma", lit "z"]])
      .en (lit "g.csv") 9).2 .en).path = some (lit "en.csv") := by
  have hfail : (load_glossary enDemo
      (.rowsRaise [[lit "term", lit "translation"], [lit "gamma", lit "z"]])
      .en (lit "g.csv") 9).1 = false := by
    decide
  obtain ⟨h1, h2, h3⟩ := load_failure_frame enDemo
    (.rowsRaise [[lit "term", lit "translation"], [lit "gamma", lit "z"]])
    .en (lit "g.csv") 9 hfail
  refine ⟨hfail, ?_, ?_, ?_⟩
  · rw [h1]; decide
  · rw [h2]; decide
  · rw [h3]; decide

theorem dropWhile_idem (p : Char → Bool) (l : Str) :
    (l.dropWhile p).dropWhile p = l.dropWhile p := by
  induction l with
  | nil => rfl
  | cons c t ih =>
    by_cases hp : p c = true
    · simp [List.dropWhile_cons, hp, ih]
    · simp [List.dropWhile_cons, hp]

theorem dropWhile_head_not (p : Char → Bool) (l : Str) (c : Char) (t : Str)
    (h : l.dropWhile p = c :: t) : p c = false := by
  induction l with
  | nil => simp at h
  | cons a l0 ih =>
    by_cases hp : p a = true
    · rw [List.dropWhile_cons, if_pos hp] at h
      exact ih h
    · rw [List.dropWhile_cons, if_neg hp] at h
      cases h
      simpa using hp

theorem dropEnds_idem (p : Char → Bool) (s : Str) :
    dropEnds p (dropEnds p s) = dropEnds p s := by
  unfold dropEnds
  have hv : ((s.dropWhile p).reverse.dropWhile p).dropWhile p
      = (s.dropWhile p).reverse.dropWhile p := dropWhile_idem p _
  have h1 : ((s.dropWhile p).reverse.dropWhile p).reverse.dropWhile p
      = ((s.dropWhile p).reverse.dropWhile p).reverse := by
    cases hr : ((s.dropWhile p).reverse.dropWhile p).reverse with
    | nil => simp
    | cons c t =>
      have hu : s.dropWhile p =
          ((s.dropWhile p).reverse.dropWhile p).reverse ++
          ((s.dropWhile p).reverse.takeWhile p).reverse := by
        conv_lhs =>
          rw [← List.reverse_reverse (s.dropWhile p),
            ← List.takeWhile_append_dropWhile p (s.dropWhile p).reverse]
        rw [List.reverse_append]
      rw [hr] at hu
      simp only [List.cons_append] at hu
      have hc : p c = false := dropWhile_head_not p s c _ hu
      rw [List.dropWhile_cons, if_neg (by simp [hc])]
  rw [h1, List.reverse_reverse, hv]

theorem isSpace_eq_false_of_range (c : Char)
    (h : 65 ≤ c.toNat ∧ c.toNat ≤ 122) : isSpace c = false := by
  simp only [isSpace, Bool.or_eq_false_iff, decide_eq_false_iff_not]
  omega

theorem lowerChar_isSpace (c : Char) : isSpace (lowerChar c) = isSpace c := by
  unfold lowerChar
  by_cases h : 65 ≤ c.toNat ∧ c.toNat ≤ 90
  · rw [if_pos h]
    have ht : (Char.ofNat (c.toNat + 32)).toNat = c.toNat + 32 :=
      toNat_ofNat_small _ (by omega)
    rw [isSpace_eq_false_of_range _ (by rw [ht]; omega),
      isSpace_eq_false_of_range c (by omega)]
  · rw [if_neg h]

theorem strip_lowerStr_comm (s : Str) : strip (lowerStr s) = lowerStr (strip s) := by
  unfold strip lowerStr dropEnds
  have hps : (isSpace ∘ lowerChar) = isSpace := funext fun c => lowerChar_isSpace c
  rw [List.dropWhile_map, hps, ← List.map_reverse, List.dropWhile_map, hps,
    ← List.map_reverse]

theorem lowerStr_idem (s : Str) : lowerStr (lowerStr s) = lowerStr s := by
  unfold lowerStr
  rw [List.map_map]
  exact List.map_congr_left (fun c _ => lowerChar_idem c)

/-- The `strip().lower()` normalization is idempotent. -/
theorem normalize_idem (s : Str) : normalize (normalize s) = normalize s := by
  unfold normalize
  rw [strip_lowerStr_comm]
  show lowerStr (lowerStr (strip (strip s))) = lowerStr (strip s)
  rw [show strip (strip s) = strip s from dropEnds_idem isSpace s]
  exact lowerStr_idem (strip s)

theorem mem_dkeys_foldl_dput {β : Type} (keyF : β → Str) (entF : β → Entry)
    (l : List β) (d0 : List (Str × Entry)) (q : Str)
    (h : q ∈ dkeys (l.foldl (fun d b => dput d (keyF b) (entF b)) d0)) :
    q ∈ dkeys d0 ∨ ∃ b ∈ l, q = keyF b := by
  induction l generalizing d0 with
  | nil => exact Or.inl h
  | cons b rest ih =>
    rw [List.foldl_cons] at h
    rcases ih (dput d0 (keyF b) (entF b)) h with hd | ⟨b0, hb0, rfl⟩
    · rcases (mem_dkeys_dput _ _ _ _).1 hd with rfl | hd
      · exact Or.inr ⟨b, by simp, rfl⟩
      · exact Or.inl hd
    · exact Or.inr ⟨b0, by simp [hb0], rfl⟩

/-- Every key of the data dict after any `load_glossary` call is
normalization-stable: the call either leaves the dict cleared or keys
every entry by `strip().lower()` of a cell, and that normalization is
idempotent.  This is the table invariant assumed by the round-trip and
no-duplicate theorems. -/
theorem load_keysNormalized (st : GlossaryManager) (file : CsvFile) (lang : Lang)
    (fpath : Str) (now : Nat) :
    ∀ k ∈ dkeys (getTable (load_glossary st file lang fpath now).2 lang).data,
      normalize k = k := by
  intro k hk
  cases file with
  | unreadable => simp [load_glossary, getTable_setTable_same, dkeys] at hk
  | rows rs =>
    cases rs with
    | nil => simp [load_glossary, getTable_setTable_same, dkeys] at hk
    | cons rawHeader dataRows =>
      cases hs : schemaOf lang (rawHeader.map strip) with
      | none => simp [load_glossary, hs, getTable_setTable_same, dkeys] at hk
      | some tpl =>
        obtain ⟨ti, tri, ni⟩ := tpl
        simp only [load_glossary, hs, getTable_setTable_same] at hk
        rw [foldl_rowStep_data lang (rawHeader.map strip) ti tri ni dataRows [] 0]
          at hk
        rcases mem_dkeys_foldl_dput (fun row => normalize (row.getD ti []))
          (entryFor lang (rawHeader.map strip) tri ni) _ [] k hk with
          hd | ⟨row, _, rfl⟩
        · simp [dkeys] at hd
        · exact normalize_idem _
  | rowsRaise rs =>
    cases rs with
    | nil => simp [load_glossary, getTable_setTable_same, dkeys] at hk
    | cons rawHeader dataRows =>
      cases hs : schemaOf lang (rawHeader.map strip) with
      | none => simp [load_glossary, hs, getTable_setTable_same, dkeys] at hk
      | some tpl =>
        obtain ⟨ti, tri, ni⟩ := tpl
        simp only [load_glossary, hs, getTable_setTable_same] at hk
        rw [foldl_rowStep_data lang (rawHeader.map strip) ti tri ni dataRows [] 0]
          at hk
        rcases mem_dkeys_foldl_dput (fun row => normalize (row.getD ti []))
          (entryFor lang (rawHeader.map strip) tri ni) _ [] k hk with
          hd | ⟨row, _, rfl⟩
        · simp [dkeys] at hd
        · exact normalize_idem _

/-- Combined outcome of a scan that returns a result list: when every
key of the active data dict is normalization-stable (the invariant
`load_glossary` establishes by keying entries by `strip().lower()`),
every returned Match has a normalized term that is a key of the dict,
and the normalized terms of the result list are pairwise distinct. -/
theorem find_terms_ok_spec (st : GlossaryManager) (text : Str) (res : List Match)
    (hn : ∀ k ∈ dkeys (getTable st st.current_language).data, normalize k = k)
    (hok : find_terms_in_text st text = .ok res) :
    (∀ m ∈ res, normalize m.term ∈ dkeys (getTable st st.current_language).data) ∧
    (res.map (fun m => normalize m.term)).Nodup := by
  simp only [find_terms_in_text] at hok
  by_cases he : text = [] ∨ (getTable st st.current_language).data = []
  · rw [if_pos he] at hok
    cases hok
    simp
  · rw [if_neg he] at hok
    split at hok
    case _ hcl =>
      rw [hcl] at hok hn ⊢
      split at hok
      · exact absurd hok (by simp)
      · rename_i p1 heq1
        split at hok
        · exact absurd hok (by simp)
        · rename_i p2 heq2
          split at hok
          · exact absurd hok (by simp)
          · rename_i p3 heq3
            cases hok
            have s1 := scanLoop_spec (getTable st .en).data
              (fun w => dmem (getTable st .en).data w &&
                !(case_sensitive_terms.contains (upperStr w)))
              (fun w => w) (wordTokens (lowerStr text)) [] [] p1.1 p1.2
              (fun w hw => wordToken_normalize text w hw)
              (by simp) (by simp) (by simp) heq1
            have s2 := scanLoop_spec (getTable st .en).data
              (fun t => t.contains ' ' && substr t (lowerStr text))
              (fun t => t) (dkeys (getTable st .en).data) p1.1 p1.2 p2.1 p2.2
              (fun k hk => hn k hk)
              s1.1 s1.2.1 s1.2.2.1 heq2
            have s3 := scanLoop_spec (getTable st .en).data
              (fun sp => dmem (getTable st .en).data (lowerStr sp) &&
                (wordTokens text).contains sp)
              lowerStr case_sensitive_terms p2.1 p2.2 p3.1 p3.2
              (by
                intro sp hsp
                simp only [case_sensitive_terms, List.mem_cons,
                  List.mem_singleton, List.not_mem_nil, or_false] at hsp
                rcases hsp with rfl | rfl <;> decide)
              s2.1 s2.2.1 s2.2.2.1 heq3
            exact ⟨s3.2.1, s3.2.2.1⟩
    case _ hcl =>
      rw [hcl] at hok hn ⊢
      split at hok
      · exact absurd hok (by simp)
      · rename_i p1 heq1
        split at hok
        · exact absurd hok (by simp)
        · rename_i p2 heq2
          cases hok
          have s1 := scanLoop_spec (getTable st .ko).data
            (fun w => dmem (getTable st .ko).data w) (fun w => w)
            ((splitWs (lowerStr text)).map (stripChars koPunct)) [] [] p1.1 p1.2
            (by
              intro w hw
              simp only [List.mem_map] at hw
              obtain ⟨w0, hw0, rfl⟩ := hw
              exact koWord_normalize text w0 hw0)
            (by simp) (by simp) (by simp) heq1
          have s2 := scanLoop_spec (getTable st .ko).data
            (fun t => substr t (lowerStr text)) (fun t => t)
            (dkeys (getTable st .ko).data) p1.1 p1.2 p2.1 p2.2
            (fun k hk => hn k hk)
            s1.1 s1.2.1 s1.2.2.1 heq2
          exact ⟨s2.2.1, s2.2.2.1⟩
    case _ hcl =>
      rw [hcl] at hok hn ⊢
      split at hok
      · exact absurd hok (by simp)
      · rename_i p1 heq1
        cases hok
        have s1 := scanLoop_spec (getTable st .zh).data
          (fun t => substr t (lowerStr text)) (fun t => t)
          (dkeys (getTable st .zh).data) [] [] p1.1 p1.2
          (fun k hk => hn k hk)
          (by simp) (by simp) (by simp) heq1
        exact ⟨s1.2.1, s1.2.2.1⟩

/-- C6: every Match returned by a scan carries a term whose
normalization is a key of the active table, so `get_term` retrieves an
entry for it; the hypothesis is the table invariant that every key is
normalization-stable, which holds of every table `load_glossary`
builds since it keys entries by `strip().lower()`. -/
theorem find_terms_round_trip (st : GlossaryManager) (text : Str)
    (res : List Match)
    (hn : ∀ k ∈ dkeys (getTable st st.current_language).data, normalize k = k)
    (hok : find_terms_in_text st text = .ok res) :
    ∀ m ∈ res, (get_term st m.term).isSome = true := by
  intro m hm
  have h := find_terms_ok_spec st text res hn hok
  unfold get_term
  exact (dget_isSome_iff _ _).2 (h.1 m hm)

/-- Witness for C6: both Matches of a concrete English scan (one from
the word pass, one exact-case) are retrievable through `get_term`. -/
theorem find_terms_round_trip_witness :
    (∀ k ∈ dkeys (getTable enDemo enDemo.current_language).data,
      normalize k = k) ∧
    (∀ m ∈ [Match.mk (lit "operator") (lit "演算子") (lit "c"),
            Match.mk (lit "AND") (lit "かつ") (lit "a")],
      (get_term enDemo m.term).isSome = true) :=
  ⟨by decide, fun m hm =>
    find_terms_round_trip enDemo (lit "AND operator")
      [Match.mk (lit "operator") (lit "演算子") (lit "c"),
       Match.mk (lit "AND") (lit "かつ") (lit "a")]
      (by decide) (by decide) m hm⟩

/-- C8: the result list of a scan never contains the same glossary term
twice under normalization, across all passes of the active language;
the hypothesis is the same normalization-stable key invariant as for
the round-trip property. -/
theorem find_terms_no_duplicates (st : GlossaryManager) (text : Str)
    (res : List Match)
    (hn : ∀ k ∈ dkeys (getTable st st.current_language).data, normalize k = k)
    (hok : find_terms_in_text st text = .ok res) :
    (res.map (fun m => normalize m.term)).Nodup :=
  (find_terms_ok_spec st text res hn hok).2

/-- Witness for C8: a concrete English scan whose two Matches come from
two different passes has pairwise distinct normalized terms. -/
theorem find_terms_no_duplicates_witness :
    (∀ k ∈ dkeys (getTable enDemo enDemo.current_language).data,
      normalize k = k) ∧
    ([Match.mk (lit "operator") (lit "演算子") (lit "c"),
      Match.mk (lit "AND") (lit "かつ") (lit "a")].map
        (fun m => normalize m.term)).Nodup :=
  ⟨by decide,
    find_terms_no_duplicates enDemo (lit "operator AND")
      [Match.mk (lit "operator") (lit "演算子") (lit "c"),
       Match.mk (lit "AND") (lit "かつ") (lit "a")]
      (by decide) (by decide)⟩

/-- C5: loading a readable English CSV whose stripped header contains
`term` and `translation` case-insensitively succeeds, and `total_terms`
is exactly the number of valid data rows: rows with enough columns whose
normalized term and stripped translation are both non-empty. -/
theorem load_en_counts_valid_rows (st : GlossaryManager) (rawHeader : List Str)
    (dataRows : List (List Str)) (fpath : Str) (now : Nat)
    (hterm : lit "term" ∈ (rawHeader.map strip).map lowerStr)
    (htr : lit "translation" ∈ (rawHeader.map strip).map lowerStr) :
    (load_glossary st (.rows (rawHeader :: dataRows)) .en fpath now).1 = true ∧
    (getTable (load_glossary st (.rows (rawHeader :: dataRows)) .en fpath now).2
        .en).total_terms =
      (dataRows.filter
        (validRow (idxOf (lit "term") ((rawHeader.map strip).map lowerStr))
          (idxOf (lit "translation") ((rawHeader.map strip).map lowerStr)))).length := by
  have hs : schemaOf .en (rawHeader.map strip) =
      some (idxOf (lit "term") ((rawHeader.map strip).map lowerStr),
            idxOf (lit "translation") ((rawHeader.map strip).map lowerStr),
        if lit "notes" ∈ (rawHeader.map strip).map lowerStr then
          some (idxOf (lit "notes") ((rawHeader.map strip).map lowerStr))
        else none) := by
    simp only [schemaOf]
    rw [if_pos ⟨hterm, htr⟩]
  constructor
  · simp [load_glossary, hs]
  · simp only [load_glossary, hs, getTable_setTable_same]
    rw [foldl_rowStep_count]
    omega

/-- Witness for C5: a three-row file with one row whose translation is
blank loads with `total_terms = 2`. -/
theorem load_en_counts_valid_rows_witness :
    (lit "term" ∈ ([lit " Term ", lit "Translation"].map strip).map lowerStr ∧
      lit "translation" ∈ ([lit " Term ", lit "Translation"].map strip).map lowerStr) ∧
    (load_glossary GlossaryManager.init
      (.rows [[lit " Term ", lit "Translation"],
              [lit "Alpha", lit "x"],
              [lit "beta", lit "  "],
              [lit "gamma", lit "y"]]) .en (lit "w.csv") 3).1 = true ∧
    (getTable (load_glossary GlossaryManager.init
      (.rows [[lit " Term ", lit "Translation"],
              [lit "Alpha", lit "x"],
              [lit "beta", lit "  "],
              [lit "gamma", lit "y"]]) .en (lit "w.csv") 3).2 .en).total_terms = 2 := by
  refine ⟨⟨by decide, by decide⟩, ?_⟩
  have h := load_en_counts_valid_rows GlossaryManager.init
    [lit " Term ", lit "Translation"]
    [[lit "Alpha", lit "x"], [lit "beta", lit "  "], [lit "gamma", lit "y"]]
    (lit "w.csv") 3 (by decide) (by decide)
  refine ⟨h.1, ?_⟩
  rw [h.2]
  decide

/-- C10: a successful load sets `total_terms` to the number of valid
rows, each counted even when its normalized term repeats an earlier one;
since duplicate keys overwrite a single dict entry, the size of `data`
is at most `total_terms`, and equality forces the normalized terms of
the valid rows to be pairwise distinct. -/
theorem load_total_terms_ge_entries (st : GlossaryManager) (lang : Lang)
    (rawHeader : List Str) (dataRows : List (List Str)) (fpath : Str) (now : Nat)
    (ti tri : Nat) (ni : Option Nat)
    (hs : schemaOf lang (rawHeader.map strip) = some (ti, tri, ni)) :
    (load_glossary st (.rows (rawHeader :: dataRows)) lang fpath now).1 = true ∧
    (getTable (load_glossary st (.rows (rawHeader :: dataRows)) lang fpath now).2
        lang).total_terms = (dataRows.filter (validRow ti tri)).length ∧
    (getTable (load_glossary st (.rows (rawHeader :: dataRows)) lang fpath now).2
        lang).data.length ≤
      (getTable (load_glossary st (.rows (rawHeader :: dataRows)) lang fpath now).2
        lang).total_terms ∧
    ((getTable (load_glossary st (.rows (rawHeader :: dataRows)) lang fpath now).2
        lang).data.length =
      (getTable (load_glossary st (.rows (rawHeader :: dataRows)) lang fpath now).2
        lang).total_terms →
      ((dataRows.filter (validRow ti tri)).map
        (fun row => normalize (row.getD ti []))).Nodup) := by
  have hload : load_glossary st (.rows (rawHeader :: dataRows)) lang fpath now =
      (true, setTable
        (setTable (setTable st lang { getTable st lang with data := [] }) lang
          { getTable (setTable st lang { getTable st lang with data := [] }) lang with
              header := some (rawHeader.map strip) })
        lang
        { getTable (setTable (setTable st lang { getTable st lang with data := [] })
              lang
              { getTable (setTable st lang
                  { getTable st lang with data := [] }) lang with
                  header := some (rawHeader.map strip) }) lang with
            data := (dataRows.foldl
              (rowStep lang (rawHeader.map strip) ti tri ni) ([], 0)).1
            total_terms := (dataRows.foldl
              (rowStep lang (rawHeader.map strip) ti tri ni) ([], 0)).2
            last_updated := some now
            path := some fpath }) := by
    simp [load_glossary, hs]
  rw [hload]
  simp only [getTable_setTable_same]
  refine ⟨trivial, ?_, ?_, ?_⟩
  · rw [foldl_rowStep_count lang (rawHeader.map strip) ti tri ni dataRows [] 0]
    omega
  · rw [foldl_rowStep_count lang (rawHeader.map strip) ti tri ni dataRows [] 0,
      foldl_rowStep_data lang (rawHeader.map strip) ti tri ni dataRows [] 0]
    have := foldl_dput_length_le (fun row => normalize (row.getD ti []))
      (entryFor lang (rawHeader.map strip) tri ni)
      (dataRows.filter (validRow ti tri)) []
    simpa using this
  · intro heq
    rw [foldl_rowStep_count lang (rawHeader.map strip) ti tri ni dataRows [] 0,
      foldl_rowStep_data lang (rawHeader.map strip) ti tri ni dataRows [] 0] at heq
    have := foldl_dput_length_eq (fun row => normalize (row.getD ti []))
      (entryFor lang (rawHeader.map strip) tri ni)
      (dataRows.filter (validRow ti tri)) [] (by simpa using heq)
    exact this.1

/-- Witness for C10: a file whose two valid rows share the normalized
term `alpha` loads with `total_terms = 2` but only one dict entry. -/
theorem load_total_terms_ge_entries_witness :
    schemaOf .en ([lit "term", lit "translation"].map strip) = some (0, 1, none) ∧
    (load_glossary GlossaryManager.init
      (.rows [[lit "term", lit "translation"],
              [lit "Alpha", lit "x"],
              [lit " alpha ", lit "y"]]) .en (lit "d.csv") 1).1 = true ∧
    (getTable (load_glossary GlossaryManager.init
      (.rows [[lit "term", lit "translation"],
              [lit "Alpha", lit "x"],
              [lit " alpha ", lit "y"]]) .en (lit "d.csv") 1).2 .en).total_terms = 2 ∧
    (getTable (load_glossary GlossaryManager.init
      (.rows [[lit "term", lit "translation"],
              [lit "Alpha", lit "x"],
              [lit " alpha ", lit "y"]]) .en (lit "d.csv") 1).2 .en).data.length = 1 := by
  have h := load_total_terms_ge_entries GlossaryManager.init .en
    [lit "term", lit "translation"]
    [[lit "Alpha", lit "x"], [lit " alpha ", lit "y"]]
    (lit "d.csv") 1 0 1 none (by decide)
  exact ⟨by decide, h.1, by rw [h.2.1]; decide, by decide⟩

end SearchGlossary
